import Mathlib

/-!
# Verification of `inventory_system.py`

A shallow embedding of the inventory-management module and proofs of its
specified properties.

Modelling conventions:
* Python values that can appear as inventory quantities or function arguments
  are modelled by the dynamic type `PyVal` (integers, strings, `None`, lists,
  dicts; JSON numbers are taken to be integers, which is the shape this
  system reads and writes).
* The inventory dictionary is an insertion-ordered association list
  `Stock = List (String × PyVal)`; `setv` updates the first occurrence of a key
  or appends a fresh one at the end, and `delv` removes a key, exactly the
  observable behaviour of a Python `dict`.
* Python operations that may raise (`+`, `-`, `<=` on mismatched types)
  return `Option`, and each embedded function reports its outcome
  (success / error branch taken / uncaught exception) next to the resulting
  state, so "no mutation on error" is a provable statement.
* The `json` standard library is modelled abstractly: a file holds either a
  valid JSON document (already decoded to a `PyVal`) or text that is not
  valid JSON; `json.dump` stores the document, `json.load` returns it.
-/

inductive PyVal where
  | vint : Int → PyVal
  | vstr : String → PyVal
  | vnone : PyVal
  | vlist : List PyVal → PyVal
  | vdict : List (String × PyVal) → PyVal

/-- The inventory dictionary: item name to stored value, in insertion order. -/
abbrev Stock : Type := List (String × PyVal)

/-- Python `d[k]` / `d.get(k)`: the value at the first occurrence of `k`. -/
def lookupV (st : Stock) (k : String) : Option PyVal :=
  match st with
  | [] => none
  | (k1, v) :: rest => if k1 = k then some v else lookupV rest k

/-- Python `d[k] = v`: overwrite in place if present, else append at the end. -/
def setv (st : Stock) (k : String) (v : PyVal) : Stock :=
  match st with
  | [] => [(k, v)]
  | (k1, v1) :: rest => if k1 = k then (k, v) :: rest else (k1, v1) :: setv rest k v

/-- Python `del d[k]`. -/
def delv (st : Stock) (k : String) : Stock :=
  match st with
  | [] => []
  | (k1, v1) :: rest => if k1 = k then delv rest k else (k1, v1) :: delv rest k

/-- Python `+` on the values we model; `none` is an uncaught `TypeError`. -/
def py_add : PyVal → PyVal → Option PyVal
  | .vint a, .vint b => some (.vint (a + b))
  | .vstr a, .vstr b => some (.vstr (a ++ b))
  | .vlist a, .vlist b => some (.vlist (a ++ b))
  | _, _ => none

/-- Python `-` on the values we model; `none` is a `TypeError`. -/
def py_sub : PyVal → PyVal → Option PyVal
  | .vint a, .vint b => some (.vint (a - b))
  | _, _ => none

/-- Python `v <= 0`; `none` is a `TypeError`. -/
def pyLE0 : PyVal → Option Bool
  | .vint n => some (decide (n ≤ 0))
  | _ => none

/-- How a call to `add_item` finished: success, one of the three validation
rejections, or an uncaught `TypeError` from `stock_data.get(item, 0) + qty`. -/
inductive AddOutcome where
  | ok : AddOutcome
  | badType : AddOutcome
  | negQty : AddOutcome
  | emptyItem : AddOutcome
  | raised : AddOutcome

/-- `add_item(item, qty, logs, stock_data)` (lines 14-41).  `now` stands for
the `datetime.now()` timestamp.  Returns the logs list, the stock dictionary
and the outcome. -/
def add_item (now : String) (item qty : PyVal) (logs : List String)
    (stock_data : Stock) : List String × Stock × AddOutcome :=
  match item, qty with
  | .vstr s, .vint q =>
    if q < 0 then (logs, stock_data, .negQty)
    else if s = "" then (logs, stock_data, .emptyItem)
    else
      match py_add ((lookupV stock_data s).getD (.vint 0)) (.vint q) with
      | some newv =>
        (logs ++ [now ++ ": Added " ++ toString q ++ " of " ++ s],
         setv stock_data s newv, .ok)
      | none => (logs, stock_data, .raised)
  | _, _ => (logs, stock_data, .badType)

/-- How a call to `remove_item` finished. -/
inductive RemoveOutcome where
  | ok : RemoveOutcome
  | keyError : RemoveOutcome
  | typeError : RemoveOutcome

/-- `remove_item(item, qty, stock_data)` (lines 44-60).
`stock_data[item] -= qty` first reads (raising `KeyError` when absent), then
subtracts (raising `TypeError` on non-numeric operands, before any write),
then writes; afterwards `stock_data[item] <= 0` decides deletion. -/
def remove_item (item : String) (qty : PyVal) (stock_data : Stock) :
    Stock × RemoveOutcome :=
  match lookupV stock_data item with
  | none => (stock_data, .keyError)
  | some v =>
    match py_sub v qty with
    | none => (stock_data, .typeError)
    | some newv =>
      let st1 := setv stock_data item newv
      match pyLE0 newv with
      | none => (st1, .typeError)
      | some true => (delv st1 item, .ok)
      | some false => (st1, .ok)

/-- `get_qty(item, stock_data)` (lines 63-74): `stock_data.get(item, 0)`. -/
def get_qty (item : String) (stock_data : Stock) : PyVal :=
  (lookupV stock_data item).getD (.vint 0)

/-- `check_low_items(stock_data, threshold)` (lines 122-133): the list
comprehension `[item for item, qty in stock_data.items() if qty < threshold]`;
`none` is the uncaught `TypeError` of comparing a non-integer quantity. -/
def check_low_items (stock_data : Stock) (threshold : Int) : Option (List String) :=
  match stock_data with
  | [] => some []
  | (k, .vint q) :: rest =>
    (check_low_items rest threshold).map
      (fun tail => if q < threshold then k :: tail else tail)
  | _ :: _ => none

/-- Contents of a file on disk, as far as `json.load` can tell: either text
that decodes to the JSON document `v`, or text that is not valid JSON. -/
inductive FileContent where
  | jsonDoc : PyVal → FileContent
  | invalid : FileContent

/-- The file system: newest write first, per path. -/
abbrev FS : Type := List (String × FileContent)

/-- The file at `path`, if it exists. -/
def fileAt (fs : FS) (path : String) : Option FileContent :=
  match fs with
  | [] => none
  | (p, c) :: rest => if p = path then some c else fileAt rest path

/-- `load_data(file_path)` (lines 77-95): returns the decoded JSON document
as-is; on `FileNotFoundError` or `json.JSONDecodeError` returns `{}`. -/
def load_data (fs : FS) (file_path : String) : PyVal :=
  match fileAt fs file_path with
  | none => .vdict []
  | some .invalid => .vdict []
  | some (.jsonDoc v) => v

/-- `save_data(stock_data, file_path)` (lines 98-110): `json.dump` of the
dictionary to the file, overwriting it. -/
def save_data (stock_data : Stock) (fs : FS) (file_path : String) : FS :=
  (file_path, .jsonDoc (.vdict stock_data)) :: fs

/-- One mutating call in a client session: `add_item` (with its timestamp and
arbitrary `item`/`qty` arguments) or `remove_item`. -/
inductive Op where
  | add : String → PyVal → PyVal → Op
  | remove : String → PyVal → Op

/-- Effect of one call on the stock dictionary. -/
def stepOp (st : Stock) : Op → Stock
  | .add now item qty => (add_item now item qty [] st).2.1
  | .remove item qty => (remove_item item qty st).1

/-- Run a sequence of calls from the empty inventory. -/
def runOps (ops : List Op) : Stock :=
  ops.foldl stepOp []

/-- The Python heap, as far as `add_item` can touch it: every `list` object a
caller could pass as `logs` and every `dict` object a caller could pass as
`stock_data`, addressed by position. -/
structure Heap where
  lists : List (List String)
  dicts : List Stock

/-- A call to `add_item` through the heap.  A `none` argument is Python's
omitted (or explicit `None`) argument: lines 24-27 then bind the parameter to
a freshly allocated empty `list`/`dict`, which we model by appending a new
object to the heap.  A `some r` argument passes the existing object `r` by
reference, and the body mutates it in place. -/
def add_item_heap (now : String) (item qty : PyVal)
    (logsRef stockRef : Option Nat) (h : Heap) : Heap :=
  let lr := match logsRef with
    | some r => (r, h.lists)
    | none => (h.lists.length, h.lists ++ [[]])
  let dr := match stockRef with
    | some r => (r, h.dicts)
    | none => (h.dicts.length, h.dicts ++ [[]])
  let res := add_item now item qty ((lr.2.get? lr.1).getD [])
      ((dr.2.get? dr.1).getD [])
  { lists := lr.2.set lr.1 res.1, dicts := dr.2.set dr.1 res.2.1 }

/-- The validation of `add_item`, lines 29-38, as one predicate: `item` is a
string, `qty` an integer, `qty` non-negative and `item` non-empty. -/
def validAddArgs (item qty : PyVal) : Bool :=
  match item, qty with
  | .vstr s, .vint q => decide (0 ≤ q) && decide (s ≠ "")
  | _, _ => false

/-- Is a value a Python `int`? (`isinstance(v, int)` over the values we
model). -/
def isIntV : PyVal → Bool
  | .vint _ => true
  | _ => false

/-- The items whose (integer) quantity is below the threshold, in the store's
iteration order — the words of the specification of `low_stock`, to be
compared with `check_low_items`. -/
def lowItemsSpec (st : Stock) (threshold : Int) : List String :=
  (st.filter (fun e =>
    match e.2 with
    | .vint q => decide (q < threshold)
    | _ => false)).map (fun e => e.1)

/-- Fold a list of `(item, qty)` calls to `add_item` over a stock dictionary
(each call with its own fresh logs list). -/
def addSeq (now : String) (calls : List (PyVal × PyVal)) (st : Stock) : Stock :=
  calls.foldl (fun s c => (add_item now c.1 c.2 [] s).2.1) st

/-- The sum of the quantities a list of calls adds for one item. -/
def addedFor (item : String) (calls : List (PyVal × PyVal)) : Int :=
  match calls with
  | [] => 0
  | c :: rest =>
    (match c with
     | (.vstr s, .vint q) => if s = item then q else 0
     | _ => 0) + addedFor item rest

/-- An `(item, qty)` pair `add_item` accepts: non-empty string item, non-
negative integer quantity. -/
def validCall (c : PyVal × PyVal) : Bool :=
  validAddArgs c.1 c.2

/-- Every stored value is a non-negative integer. -/
def nonnegStock (st : Stock) : Prop :=
  ∀ e ∈ st, ∃ n : Int, e.2 = PyVal.vint n ∧ 0 ≤ n

section AssocLemmas

theorem lookupV_setv_self (st : Stock) (k : String) (v : PyVal) :
    lookupV (setv st k v) k = some v := by
  induction st with
  | nil => simp [setv, lookupV]
  | cons e rest ih =>
    obtain ⟨k1, v1⟩ := e
    by_cases h : k1 = k
    · simp [setv, h, lookupV]
    · simp [setv, h, lookupV, ih]

theorem lookupV_setv_ne (st : Stock) (k k2 : String) (v : PyVal)
    (hne : k2 ≠ k) : lookupV (setv st k v) k2 = lookupV st k2 := by
  have h1 : ¬ k = k2 := fun hh => hne (Eq.symm hh)
  induction st with
  | nil => simp [setv, lookupV, h1]
  | cons e rest ih =>
    obtain ⟨k1, v1⟩ := e
    by_cases h : k1 = k
    · subst h
      simp [setv, lookupV, h1]
    · simp [setv, h, lookupV, ih]

theorem lookupV_delv_self (st : Stock) (k : String) :
    lookupV (delv st k) k = none := by
  induction st with
  | nil => simp [delv, lookupV]
  | cons e rest ih =>
    obtain ⟨k1, v1⟩ := e
    by_cases h : k1 = k
    · simp [delv, h, ih]
    · simp [delv, h, lookupV, ih]

theorem mem_setv (st : Stock) (k : String) (v : PyVal) (e : String × PyVal)
    (he : e ∈ setv st k v) : e = (k, v) ∨ e ∈ st := by
  induction st with
  | nil =>
    simp [setv] at he
    exact Or.inl he
  | cons e1 rest ih =>
    obtain ⟨k1, v1⟩ := e1
    by_cases h : k1 = k
    · simp [setv, h] at he
      rcases he with h1 | h1
      · exact Or.inl h1
      · exact Or.inr (List.mem_cons_of_mem _ h1)
    · simp [setv, h] at he
      rcases he with h1 | h1
      · exact Or.inr (by simp [h1])
      · rcases ih h1 with h2 | h2
        · exact Or.inl h2
        · exact Or.inr (List.mem_cons_of_mem _ h2)

theorem mem_delv (st : Stock) (k : String) (e : String × PyVal)
    (he : e ∈ delv st k) : e ∈ st ∧ e.1 ≠ k := by
  induction st with
  | nil => simp [delv] at he
  | cons e1 rest ih =>
    obtain ⟨k1, v1⟩ := e1
    by_cases h : k1 = k
    · simp [delv, h] at he
      obtain ⟨h1, h2⟩ := ih he
      exact ⟨List.mem_cons_of_mem _ h1, h2⟩
    · simp [delv, h] at he
      rcases he with h1 | h1
      · refine ⟨by simp [h1], ?_⟩
        rw [h1]
        exact h
      · obtain ⟨h2, h3⟩ := ih h1
        exact ⟨List.mem_cons_of_mem _ h2, h3⟩

theorem lookupV_some_mem (st : Stock) (k : String) (v : PyVal)
    (h : lookupV st k = some v) : (k, v) ∈ st := by
  induction st with
  | nil => simp [lookupV] at h
  | cons e rest ih =>
    obtain ⟨k1, v1⟩ := e
    by_cases h1 : k1 = k
    · subst h1
      simp [lookupV] at h
      simp [h]
    · simp [lookupV, h1] at h
      exact List.mem_cons_of_mem _ (ih h)

end AssocLemmas

theorem set_append_length {α : Type} (l : List α) (a x : α) :
    (l ++ [a]).set l.length x = l ++ [x] := by
  induction l with
  | nil => rfl
  | cons b rest ih => simp [List.set, ih]

/-- C3: if `item` is stored with integer quantity `q` and the integer `qty`
removed is at least `q`, then after `remove_item(item, qty)` the item is
absent from the inventory and `get_qty(item)` returns 0. -/
theorem remove_at_least_stored_deletes (st : Stock) (item : String) (q qty : Int)
    (hq : lookupV st item = some (PyVal.vint q)) (hge : q ≤ qty) :
    lookupV (remove_item item (PyVal.vint qty) st).1 item = none ∧
    get_qty item (remove_item item (PyVal.vint qty) st).1 = PyVal.vint 0 := by
  have hle : q - qty ≤ 0 := by omega
  have hres : remove_item item (PyVal.vint qty) st =
      (delv (setv st item (PyVal.vint (q - qty))) item, RemoveOutcome.ok) := by
    simp [remove_item, hq, py_sub, pyLE0, hle]
  rw [hres]
  exact ⟨lookupV_delv_self _ _, by simp [get_qty, lookupV_delv_self]⟩

theorem remove_at_least_stored_deletes_witness :
    lookupV (remove_item "apple" (PyVal.vint 9) [("apple", PyVal.vint 7)]).1
        "apple" = none ∧
    get_qty "apple" (remove_item "apple" (PyVal.vint 9)
        [("apple", PyVal.vint 7)]).1 = PyVal.vint 0 :=
  remove_at_least_stored_deletes [("apple", PyVal.vint 7)] "apple" 7 9 rfl
    (by omega)

/-- C4: `remove_item` leaves the inventory exactly unchanged on both error
conditions: when `item` is absent (the `KeyError` branch) and when the stored
value or `qty` is not numeric (the `TypeError` branch, raised by the
subtraction before any write happens). -/
theorem remove_item_errors_leave_stock (st : Stock) (item : String) (qty : PyVal) :
    (lookupV st item = none →
      remove_item item qty st = (st, RemoveOutcome.keyError)) ∧
    (∀ v, lookupV st item = some v → (isIntV v = false ∨ isIntV qty = false) →
      remove_item item qty st = (st, RemoveOutcome.typeError)) := by
  constructor
  · intro h
    simp [remove_item, h]
  · intro v hv hbad
    have hsub : py_sub v qty = none := by
      cases v <;> cases qty <;> simp [isIntV] at hbad <;> rfl
    simp [remove_item, hv, hsub]

theorem remove_item_errors_leave_stock_witness :
    remove_item "pear" (PyVal.vint 1) [("apple", PyVal.vint 7)] =
      ([("apple", PyVal.vint 7)], RemoveOutcome.keyError) ∧
    remove_item "apple" (PyVal.vstr "two") [("apple", PyVal.vint 7)] =
      ([("apple", PyVal.vint 7)], RemoveOutcome.typeError) :=
  ⟨(remove_item_errors_leave_stock [("apple", PyVal.vint 7)] "pear"
      (PyVal.vint 1)).1 rfl,
   (remove_item_errors_leave_stock [("apple", PyVal.vint 7)] "apple"
      (PyVal.vstr "two")).2 (PyVal.vint 7) rfl (Or.inr rfl)⟩

/-- C5: removing a negative integer `qty` from an item stored with integer
quantity `q > 0` leaves the entry present with quantity `q - qty`, strictly
greater than `q`. -/
theorem remove_negative_increases (st : Stock) (item : String) (q qty : Int)
    (hq : lookupV st item = some (PyVal.vint q)) (hpos : 0 < q) (hneg : qty < 0) :
    lookupV (remove_item item (PyVal.vint qty) st).1 item =
      some (PyVal.vint (q - qty)) ∧ q < q - qty := by
  have hgt : ¬ q - qty ≤ 0 := by omega
  have hres : remove_item item (PyVal.vint qty) st =
      (setv st item (PyVal.vint (q - qty)), RemoveOutcome.ok) := by
    simp [remove_item, hq, py_sub, pyLE0, hgt]
  rw [hres]
  exact ⟨lookupV_setv_self _ _ _, by omega⟩

theorem remove_negative_increases_witness :
    lookupV (remove_item "apple" (PyVal.vint (-2))
        [("apple", PyVal.vint 7)]).1 "apple" = some (PyVal.vint 9) ∧
    (7 : Int) < 9 :=
  remove_negative_increases [("apple", PyVal.vint 7)] "apple" 7 (-2) rfl
    (by omega) (by omega)

/-- C7: `save_data` followed by `load_data` on the same path returns exactly
the saved mapping (the JSON document written is read back unchanged). -/
theorem save_then_load_roundtrip (stock : Stock) (fs : FS) (path : String) :
    load_data (save_data stock fs path) path = PyVal.vdict stock := by
  simp [load_data, save_data, fileAt]

/-- C8: `load_data` returns the empty mapping `{}` without raising, both when
the path has no file and when the file is not valid JSON. -/
theorem load_data_absent_or_corrupt (fs : FS) (path : String) :
    (fileAt fs path = none → load_data fs path = PyVal.vdict []) ∧
    (fileAt fs path = some FileContent.invalid →
      load_data fs path = PyVal.vdict []) := by
  constructor <;> intro h <;> simp [load_data, h]

theorem load_data_absent_or_corrupt_witness :
    load_data [("inv.json", FileContent.invalid)] "other.json" =
      PyVal.vdict [] ∧
    load_data [("inv.json", FileContent.invalid)] "inv.json" =
      PyVal.vdict [] :=
  ⟨(load_data_absent_or_corrupt [("inv.json", FileContent.invalid)]
      "other.json").1 rfl,
   (load_data_absent_or_corrupt [("inv.json", FileContent.invalid)]
      "inv.json").2 rfl⟩

theorem check_low_items_eq_filter (st : Stock) (t : Int)
    (hint : ∀ e ∈ st, isIntV e.2 = true) :
    check_low_items st t = some (lowItemsSpec st t) := by
  induction st with
  | nil => simp [check_low_items, lowItemsSpec]
  | cons e rest ih =>
    obtain ⟨k, v⟩ := e
    have hv : isIntV v = true := hint (k, v) (List.mem_cons_self _ _)
    have hrest := ih (fun e2 he2 => hint e2 (List.mem_cons_of_mem _ he2))
    cases v with
    | vint q =>
      by_cases hq : q < t
      · simp [check_low_items, hrest, lowItemsSpec, List.filter_cons, hq]
      · simp [check_low_items, hrest, lowItemsSpec, List.filter_cons, hq]
    | vstr s => simp [isIntV] at hv
    | vnone => simp [isIntV] at hv
    | vlist l => simp [isIntV] at hv
    | vdict d => simp [isIntV] at hv

theorem lowItemsSpec_nil_of_nonneg (st : Stock) (t : Int) (ht : t ≤ 0)
    (hnn : ∀ e ∈ st, ∀ n : Int, e.2 = PyVal.vint n → 0 ≤ n) :
    lowItemsSpec st t = [] := by
  rw [lowItemsSpec, List.map_eq_nil_iff, List.filter_eq_nil_iff]
  intro e he
  cases hv : e.2 with
  | vint q =>
    have := hnn e he q hv
    simp
    omega
  | vstr s => simp
  | vnone => simp
  | vlist l => simp
  | vdict d => simp

/-- C6: on an inventory whose values are integers, `check_low_items` returns
exactly the items with quantity strictly below the threshold, in the store's
iteration order; in particular the result is empty whenever the threshold is
at most 0 and every quantity is non-negative. -/
theorem check_low_items_exact (st : Stock) (t : Int)
    (hint : ∀ e ∈ st, isIntV e.2 = true) :
    check_low_items st t = some (lowItemsSpec st t) ∧
    (t ≤ 0 → (∀ e ∈ st, ∀ n : Int, e.2 = PyVal.vint n → 0 ≤ n) →
      check_low_items st t = some []) := by
  refine ⟨check_low_items_eq_filter st t hint, fun ht hnn => ?_⟩
  rw [check_low_items_eq_filter st t hint, lowItemsSpec_nil_of_nonneg st t ht hnn]

theorem check_low_items_exact_witness :
    (check_low_items [("apple", PyVal.vint 3), ("pear", PyVal.vint 10)] 5 =
      some (lowItemsSpec [("apple", PyVal.vint 3), ("pear", PyVal.vint 10)] 5) ∧
      ((5 : Int) ≤ 0 →
        (∀ e ∈ [("apple", PyVal.vint 3), ("pear", PyVal.vint 10)],
          ∀ n : Int, e.2 = PyVal.vint n → 0 ≤ n) →
        check_low_items [("apple", PyVal.vint 3), ("pear", PyVal.vint 10)] 5 =
          some [])) ∧
    (check_low_items [("apple", PyVal.vint 3), ("pear", PyVal.vint 10)] 0 =
      some [] ∧
     lowItemsSpec [("apple", PyVal.vint 3), ("pear", PyVal.vint 10)] 5 =
      ["apple"]) :=
  ⟨check_low_items_exact [("apple", PyVal.vint 3), ("pear", PyVal.vint 10)] 5
      (by intro e he; simp at he; rcases he with rfl | rfl <;> rfl),
   ⟨(check_low_items_exact [("apple", PyVal.vint 3), ("pear", PyVal.vint 10)] 0
        (by intro e he; simp at he; rcases he with rfl | rfl <;> rfl)).2
      (by omega)
      (by
        intro e he n hn
        simp at he
        rcases he with rfl | rfl <;> (injection hn with h2; omega)),
    rfl⟩⟩

theorem add_item_success (now : String) (st : Stock) (logs : List String)
    (s : String) (q old : Int) (hq : ¬ q < 0) (hs : ¬ s = "")
    (hold : (lookupV st s).getD (PyVal.vint 0) = PyVal.vint old) :
    add_item now (PyVal.vstr s) (PyVal.vint q) logs st =
      (logs ++ [now ++ ": Added " ++ toString q ++ " of " ++ s],
       setv st s (PyVal.vint (old + q)), AddOutcome.ok) := by
  simp [add_item, hq, hs, hold, py_add]

/-- C2 (amended): on any inventory whose stored value at `item` — if there is
one — is an integer, `add_item` leaves the inventory and the logs unchanged
exactly when validation fails (`item` not a string, `qty` not an integer,
`qty` negative, or `item` empty); on valid arguments it increments the stored
quantity for `item` by `qty` (creating the entry with value `qty` if absent),
touches no other key, and appends exactly one log entry: the resulting logs
are the old logs with the new entry at the end. -/
theorem add_item_validation_exact (now : String) (st : Stock)
    (logs : List String) (item qty : PyVal)
    (hwt : ∀ s v, item = PyVal.vstr s → lookupV st s = some v →
      isIntV v = true) :
    (((add_item now item qty logs st).2.1 = st ∧
      (add_item now item qty logs st).1 = logs) ↔
      validAddArgs item qty = false) ∧
    (∀ s q, item = PyVal.vstr s → qty = PyVal.vint q →
      validAddArgs item qty = true →
      ∃ old : Int, get_qty s st = PyVal.vint old ∧
        get_qty s (add_item now item qty logs st).2.1 =
          PyVal.vint (old + q) ∧
        (∀ k2, k2 ≠ s →
          lookupV (add_item now item qty logs st).2.1 k2 = lookupV st k2) ∧
        (add_item now item qty logs st).1 =
          logs ++ [now ++ ": Added " ++ toString q ++ " of " ++ s]) := by
  have hsucc : ∀ s q, item = PyVal.vstr s → qty = PyVal.vint q →
      validAddArgs item qty = true →
      ∃ old : Int,
        (lookupV st s).getD (PyVal.vint 0) = PyVal.vint old ∧
        add_item now item qty logs st =
          (logs ++ [now ++ ": Added " ++ toString q ++ " of " ++ s],
           setv st s (PyVal.vint (old + q)), AddOutcome.ok) := by
    intro s q hitem hqty hvalid
    subst hitem
    subst hqty
    rw [validAddArgs, Bool.and_eq_true, decide_eq_true_eq,
      decide_eq_true_eq] at hvalid
    obtain ⟨hq0, hsne⟩ := hvalid
    have hq : ¬ q < 0 := by omega
    cases hlv : lookupV st s with
    | none =>
      exact ⟨0, by simp [hlv], add_item_success now st logs s q 0 hq hsne
        (by simp [hlv])⟩
    | some v =>
      have hint := hwt s v rfl hlv
      cases v with
      | vint old =>
        exact ⟨old, by simp [hlv], add_item_success now st logs s q old hq
          hsne (by simp [hlv])⟩
      | vstr s2 => simp [isIntV] at hint
      | vnone => simp [isIntV] at hint
      | vlist l => simp [isIntV] at hint
      | vdict d => simp [isIntV] at hint
  constructor
  · constructor
    · intro hsame
      by_contra hne
      have hvalid : validAddArgs item qty = true := by
        cases h : validAddArgs item qty
        · exact absurd h hne
        · rfl
      obtain ⟨s, q, hitem, hqty⟩ : ∃ s q, item = PyVal.vstr s ∧
          qty = PyVal.vint q := by
        cases item <;> cases qty <;>
          first
          | exact ⟨_, _, rfl, rfl⟩
          | simp [validAddArgs] at hvalid
      obtain ⟨old, hold, hres⟩ := hsucc s q hitem hqty hvalid
      rw [hres] at hsame
      have hlen := congrArg List.length hsame.2
      simp at hlen
    · intro hinvalid
      cases item with
      | vstr s =>
        cases qty with
        | vint q =>
          rw [validAddArgs, Bool.and_eq_false_iff] at hinvalid
          rcases hinvalid with h | h
          · have hq : q < 0 := by
              rw [decide_eq_false_iff_not] at h
              omega
            simp [add_item, hq]
          · have hs : s = "" := by
              rw [decide_eq_false_iff_not, not_not] at h
              exact h
            by_cases hq : q < 0
            · simp [add_item, hq]
            · simp [add_item, hq, hs]
        | vstr s2 => simp [add_item]
        | vnone => simp [add_item]
        | vlist l => simp [add_item]
        | vdict d => simp [add_item]
      | vint n => cases qty <;> simp [add_item]
      | vnone => cases qty <;> simp [add_item]
      | vlist l => cases qty <;> simp [add_item]
      | vdict d => cases qty <;> simp [add_item]
  · intro s q hitem hqty hvalid
    obtain ⟨old, hold, hres⟩ := hsucc s q hitem hqty hvalid
    refine ⟨old, ?_, ?_, ?_, ?_⟩
    · rw [get_qty, hold]
    · rw [hres]
      simp [get_qty, lookupV_setv_self]
    · intro k2 hk2
      rw [hres]
      simpa using lookupV_setv_ne st s k2 (PyVal.vint (old + q)) hk2
    · rw [hres]

theorem add_item_validation_exact_witness :
    (((add_item "t" (PyVal.vstr "a") (PyVal.vint 2) []
          [("a", PyVal.vint 5)]).2.1 = [("a", PyVal.vint 5)] ∧
       (add_item "t" (PyVal.vstr "a") (PyVal.vint 2) []
          [("a", PyVal.vint 5)]).1 = ([] : List String)) ↔
      validAddArgs (PyVal.vstr "a") (PyVal.vint 2) = false) ∧
    (∀ s q, PyVal.vstr "a" = PyVal.vstr s → PyVal.vint 2 = PyVal.vint q →
      validAddArgs (PyVal.vstr "a") (PyVal.vint 2) = true →
      ∃ old : Int, get_qty s [("a", PyVal.vint 5)] = PyVal.vint old ∧
        get_qty s (add_item "t" (PyVal.vstr "a") (PyVal.vint 2) []
          [("a", PyVal.vint 5)]).2.1 = PyVal.vint (old + q) ∧
        (∀ k2, k2 ≠ s →
          lookupV (add_item "t" (PyVal.vstr "a") (PyVal.vint 2) []
            [("a", PyVal.vint 5)]).2.1 k2 =
          lookupV [("a", PyVal.vint 5)] k2) ∧
        (add_item "t" (PyVal.vstr "a") (PyVal.vint 2) []
          [("a", PyVal.vint 5)]).1 =
          ([] : List String) ++ ["t" ++ ": Added " ++ toString q ++ " of " ++ s]) :=
  add_item_validation_exact "t" [("a", PyVal.vint 5)] [] (PyVal.vstr "a")
    (PyVal.vint 2)
    (by
      intro s v hs hv
      injection hs with h1
      subst h1
      have h2 : some (PyVal.vint 5) = some v := hv
      injection h2 with h3
      rw [← h3]
      rfl)

theorem add_item_preserves_nonneg (now : String) (item qty : PyVal)
    (logs : List String) (st : Stock) (h : nonnegStock st) :
    nonnegStock (add_item now item qty logs st).2.1 := by
  cases item with
  | vstr s =>
    cases qty with
    | vint q =>
      by_cases hq : q < 0
      · simp only [add_item, if_pos hq]
        exact h
      by_cases hs : s = ""
      · simp only [add_item, if_neg hq, if_pos hs]
        exact h
      cases hlv : lookupV st s with
      | none =>
        have hres : (add_item now (PyVal.vstr s) (PyVal.vint q) logs st).2.1 =
            setv st s (PyVal.vint (0 + q)) :=
          congrArg (fun r => r.2.1)
            (add_item_success now st logs s q 0 hq hs (by simp [hlv]))
        rw [hres]
        intro e he
        rcases mem_setv st s _ e he with h1 | h1
        · exact ⟨0 + q, by rw [h1], by omega⟩
        · exact h e h1
      | some v =>
        obtain ⟨m, hm, hm0⟩ := h (s, v) (lookupV_some_mem st s v hlv)
        simp only at hm
        subst hm
        have hres : (add_item now (PyVal.vstr s) (PyVal.vint q) logs st).2.1 =
            setv st s (PyVal.vint (m + q)) :=
          congrArg (fun r => r.2.1)
            (add_item_success now st logs s q m hq hs (by simp [hlv]))
        rw [hres]
        intro e he
        rcases mem_setv st s _ e he with h1 | h1
        · exact ⟨m + q, by rw [h1], by omega⟩
        · exact h e h1
    | vstr s2 => simp only [add_item]; exact h
    | vnone => simp only [add_item]; exact h
    | vlist l => simp only [add_item]; exact h
    | vdict d => simp only [add_item]; exact h
  | vint n => cases qty <;> (simp only [add_item]; exact h)
  | vnone => cases qty <;> (simp only [add_item]; exact h)
  | vlist l => cases qty <;> (simp only [add_item]; exact h)
  | vdict d => cases qty <;> (simp only [add_item]; exact h)

theorem remove_item_preserves_nonneg (item : String) (qty : PyVal)
    (st : Stock) (h : nonnegStock st) :
    nonnegStock (remove_item item qty st).1 := by
  cases hlv : lookupV st item with
  | none =>
    simp only [remove_item, hlv]
    exact h
  | some v =>
    cases v with
    | vint a =>
      cases qty with
      | vint b =>
        have hsub : py_sub (PyVal.vint a) (PyVal.vint b) =
            some (PyVal.vint (a - b)) := rfl
        by_cases hle : a - b ≤ 0
        · have hres : (remove_item item (PyVal.vint b) st).1 =
              delv (setv st item (PyVal.vint (a - b))) item := by
            simp [remove_item, hlv, hsub, pyLE0, hle]
          rw [hres]
          intro e he
          obtain ⟨h1, h2⟩ := mem_delv _ _ _ he
          rcases mem_setv st item _ e h1 with h3 | h3
          · exact absurd (by rw [h3]) h2
          · exact h e h3
        · have hres : (remove_item item (PyVal.vint b) st).1 =
              setv st item (PyVal.vint (a - b)) := by
            simp [remove_item, hlv, hsub, pyLE0, hle]
          rw [hres]
          intro e he
          rcases mem_setv st item _ e he with h3 | h3
          · exact ⟨a - b, by rw [h3], by omega⟩
          · exact h e h3
      | vstr s2 => simp only [remove_item, hlv, py_sub]; exact h
      | vnone => simp only [remove_item, hlv, py_sub]; exact h
      | vlist l => simp only [remove_item, hlv, py_sub]; exact h
      | vdict d => simp only [remove_item, hlv, py_sub]; exact h
    | vstr s1 => cases qty <;> (simp only [remove_item, hlv, py_sub]; exact h)
    | vnone => cases qty <;> (simp only [remove_item, hlv, py_sub]; exact h)
    | vlist l => cases qty <;> (simp only [remove_item, hlv, py_sub]; exact h)
    | vdict d => cases qty <;> (simp only [remove_item, hlv, py_sub]; exact h)

theorem foldl_stepOp_nonneg (ops : List Op) :
    ∀ st : Stock, nonnegStock st → nonnegStock (ops.foldl stepOp st) := by
  induction ops with
  | nil => intro st h; exact h
  | cons op rest ih =>
    intro st h
    refine ih (stepOp st op) ?_
    cases op with
    | add now item qty => exact add_item_preserves_nonneg now item qty [] st h
    | remove item qty => exact remove_item_preserves_nonneg item qty st h

/-- C1 (amended): starting from the empty inventory, every sequence of
`add_item` and `remove_item` calls keeps every stored entry an integer
quantity that is non-negative — negative entries are never kept, and
`remove_item` deletes any entry whose quantity would drop to zero or below;
only `add_item` with `qty = 0` can store an entry with quantity exactly 0. -/
theorem runOps_entries_nonneg (ops : List Op) :
    ∀ e ∈ runOps ops, ∃ n : Int, e.2 = PyVal.vint n ∧ 0 ≤ n :=
  foldl_stepOp_nonneg ops [] (by intro e he; simp at he)

theorem runOps_entries_nonneg_witness :
    ∃ n : Int, ("a", PyVal.vint 3).2 = PyVal.vint n ∧ 0 ≤ n :=
  runOps_entries_nonneg [Op.add "t" (PyVal.vstr "a") (PyVal.vint 3)]
    ("a", PyVal.vint 3)
    (show ("a", PyVal.vint 3) ∈ [("a", PyVal.vint 3)] from
      List.mem_singleton.mpr rfl)

/-- C1 counterexample: `add_item("a", 0)` on the empty inventory is accepted
(the code only rejects `qty < 0`) and stores the entry `("a", 0)`, so a
zero-quantity entry is kept in the mapping, contradicting the claimed
invariant that no stored entry has quantity ≤ 0. -/
theorem runOps_zero_entry_counterexample :
    runOps [Op.add "t" (PyVal.vstr "a") (PyVal.vint 0)] =
      [("a", PyVal.vint 0)] ∧
    ¬ (∀ e ∈ runOps [Op.add "t" (PyVal.vstr "a") (PyVal.vint 0)],
        ∀ n : Int, e.2 = PyVal.vint n → 0 < n) := by
  refine ⟨rfl, fun hall => ?_⟩
  have h1 : ("a", PyVal.vint 0) ∈
      runOps [Op.add "t" (PyVal.vstr "a") (PyVal.vint 0)] :=
    show ("a", PyVal.vint 0) ∈ [("a", PyVal.vint 0)] from
      List.mem_singleton.mpr rfl
  have h2 := hall ("a", PyVal.vint 0) h1 0 rfl
  omega

/-- C2 counterexample: on the inventory `{"a": "x"}` (a non-integer stored
value, as the spec says a loaded file may contain), the valid call
`add_item("a", 1)` neither rejects nor increments: the `+` on line 40 raises
an uncaught `TypeError`, so the inventory and logs are unchanged even though
none of the four rejection conditions holds — the claimed biconditional
fails. -/
theorem add_item_validation_counterexample :
    (add_item "t" (PyVal.vstr "a") (PyVal.vint 1) []
      [("a", PyVal.vstr "x")]).2.1 = [("a", PyVal.vstr "x")] ∧
    (add_item "t" (PyVal.vstr "a") (PyVal.vint 1) []
      [("a", PyVal.vstr "x")]).1 = ([] : List String) ∧
    (add_item "t" (PyVal.vstr "a") (PyVal.vint 1) []
      [("a", PyVal.vstr "x")]).2.2 = AddOutcome.raised ∧
    validAddArgs (PyVal.vstr "a") (PyVal.vint 1) = true ∧
    ¬ (((add_item "t" (PyVal.vstr "a") (PyVal.vint 1) []
          [("a", PyVal.vstr "x")]).2.1 = [("a", PyVal.vstr "x")] ∧
        (add_item "t" (PyVal.vstr "a") (PyVal.vint 1) []
          [("a", PyVal.vstr "x")]).1 = ([] : List String)) ↔
        validAddArgs (PyVal.vstr "a") (PyVal.vint 1) = false) := by
  refine ⟨rfl, rfl, rfl, rfl, fun hiff => ?_⟩
  have h1 := hiff.mp ⟨rfl, rfl⟩
  have h2 : validAddArgs (PyVal.vstr "a") (PyVal.vint 1) = true := rfl
  rw [h1] at h2
  exact Bool.false_ne_true h2

theorem addedFor_eq_zero (item : String) (calls : List (PyVal × PyVal))
    (h : ∀ c ∈ calls, c.1 ≠ PyVal.vstr item) : addedFor item calls = 0 := by
  induction calls with
  | nil => rfl
  | cons c rest ih =>
    have h1 := h c (List.mem_cons_self c rest)
    have h2 := ih (fun c2 hc2 => h c2 (List.mem_cons_of_mem _ hc2))
    obtain ⟨ci, cq⟩ := c
    cases ci with
    | vstr s =>
      have hs : ¬ s = item := fun hh => h1 (by rw [hh])
      cases cq <;> simp [addedFor, h2, hs]
    | vint n => cases cq <;> simp [addedFor, h2]
    | vnone => cases cq <;> simp [addedFor, h2]
    | vlist l => cases cq <;> simp [addedFor, h2]
    | vdict d => cases cq <;> simp [addedFor, h2]

theorem addSeq_tracks (now item : String) (calls : List (PyVal × PyVal)) :
    ∀ (st : Stock) (m : Int),
      (∀ c ∈ calls, validCall c = true) →
      (lookupV st item = some (PyVal.vint m) ∨
        (lookupV st item = none ∧ m = 0)) →
      get_qty item (addSeq now calls st) =
        PyVal.vint (m + addedFor item calls) := by
  induction calls with
  | nil =>
    intro st m hv htrack
    rcases htrack with h | ⟨h, hm⟩
    · simp [addSeq, get_qty, h, addedFor]
    · simp [addSeq, get_qty, h, addedFor, hm]
  | cons c rest ih =>
    intro st m hv htrack
    have hc := hv c (List.mem_cons_self c rest)
    have hrest : ∀ c2 ∈ rest, validCall c2 = true :=
      fun c2 hc2 => hv c2 (List.mem_cons_of_mem _ hc2)
    obtain ⟨ci, cq⟩ := c
    cases ci with
    | vstr s =>
      cases cq with
      | vint q =>
        rw [validCall, validAddArgs, Bool.and_eq_true, decide_eq_true_eq,
          decide_eq_true_eq] at hc
        obtain ⟨hq0, hs⟩ := hc
        have hnotlt : ¬ q < 0 := by omega
        have hstep : addSeq now ((PyVal.vstr s, PyVal.vint q) :: rest) st =
            addSeq now rest
              ((add_item now (PyVal.vstr s) (PyVal.vint q) [] st).2.1) := rfl
        by_cases hsi : s = item
        · subst hsi
          have hget : (lookupV st s).getD (PyVal.vint 0) = PyVal.vint m := by
            rcases htrack with h | ⟨h, hm⟩
            · simp [h]
            · simp [h, hm]
          have hadd : (add_item now (PyVal.vstr s) (PyVal.vint q) [] st).2.1 =
              setv st s (PyVal.vint (m + q)) := by
            simp [add_item, hnotlt, hs, hget, py_add]
          rw [hstep, hadd]
          have hrec := ih (setv st s (PyVal.vint (m + q))) (m + q) hrest
            (Or.inl (lookupV_setv_self st s (PyVal.vint (m + q))))
          rw [hrec]
          have haf : addedFor s ((PyVal.vstr s, PyVal.vint q) :: rest) =
              q + addedFor s rest := by simp [addedFor]
          rw [haf]
          congr 1
          ring
        · have haf : addedFor item ((PyVal.vstr s, PyVal.vint q) :: rest) =
              addedFor item rest := by simp [addedFor, hsi]
          rw [hstep, haf]
          cases hpy : py_add ((lookupV st s).getD (PyVal.vint 0))
              (PyVal.vint q) with
          | none =>
            have hadd : (add_item now (PyVal.vstr s) (PyVal.vint q) [] st).2.1
                = st := by simp [add_item, hnotlt, hs, hpy]
            rw [hadd]
            exact ih st m hrest htrack
          | some newv =>
            have hadd : (add_item now (PyVal.vstr s) (PyVal.vint q) [] st).2.1
                = setv st s newv := by simp [add_item, hnotlt, hs, hpy]
            rw [hadd]
            have hl : lookupV (setv st s newv) item = lookupV st item :=
              lookupV_setv_ne st s item newv (fun hh => hsi hh.symm)
            apply ih _ m hrest
            rcases htrack with h | ⟨h, hm⟩
            · exact Or.inl (hl.trans h)
            · exact Or.inr ⟨hl.trans h, hm⟩
      | vstr s2 => simp [validCall, validAddArgs] at hc
      | vnone => simp [validCall, validAddArgs] at hc
      | vlist l => simp [validCall, validAddArgs] at hc
      | vdict d => simp [validCall, validAddArgs] at hc
    | vint n => simp [validCall, validAddArgs] at hc
    | vnone => simp [validCall, validAddArgs] at hc
    | vlist l => simp [validCall, validAddArgs] at hc
    | vdict d => simp [validCall, validAddArgs] at hc

/-- C9: starting from an inventory in which `item` is absent, after any
sequence of valid `add_item` calls (non-empty string item, non-negative
integer quantity), `get_qty(item)` equals the sum of the quantities added for
`item`; in particular it returns 0 when no call ever added `item`. -/
theorem get_qty_sums_valid_adds (now item : String) (st : Stock)
    (calls : List (PyVal × PyVal)) (h0 : lookupV st item = none)
    (hv : ∀ c ∈ calls, validCall c = true) :
    get_qty item (addSeq now calls st) = PyVal.vint (addedFor item calls) ∧
    ((∀ c ∈ calls, c.1 ≠ PyVal.vstr item) →
      get_qty item (addSeq now calls st) = PyVal.vint 0) := by
  have hmain := addSeq_tracks now item calls st 0 hv (Or.inr ⟨h0, rfl⟩)
  rw [zero_add] at hmain
  refine ⟨hmain, fun hnone => ?_⟩
  rw [hmain, addedFor_eq_zero item calls hnone]

theorem get_qty_sums_valid_adds_witness :
    get_qty "a" (addSeq "t"
      [(PyVal.vstr "a", PyVal.vint 2), (PyVal.vstr "b", PyVal.vint 3),
       (PyVal.vstr "a", PyVal.vint 5)] []) = PyVal.vint 7 ∧
    ((∀ c ∈ [(PyVal.vstr "a", PyVal.vint 2), (PyVal.vstr "b", PyVal.vint 3),
        (PyVal.vstr "a", PyVal.vint 5)], c.1 ≠ PyVal.vstr "a") →
      get_qty "a" (addSeq "t"
        [(PyVal.vstr "a", PyVal.vint 2), (PyVal.vstr "b", PyVal.vint 3),
         (PyVal.vstr "a", PyVal.vint 5)] []) = PyVal.vint 0) :=
  get_qty_sums_valid_adds "t" "a" []
    [(PyVal.vstr "a", PyVal.vint 2), (PyVal.vstr "b", PyVal.vint 3),
     (PyVal.vstr "a", PyVal.vint 5)] rfl (by decide)

/-- C10: calling `add_item` with the `logs` and `stock_data` arguments
omitted (or `None`) mutates only the freshly allocated list and dictionary:
every object that existed in the heap before the call is unchanged, so the
call has no observable effect on any caller-visible inventory and the
appended log entry is discarded. -/
theorem add_item_omitted_args_no_effect (now : String) (item qty : PyVal)
    (h : Heap) :
    (add_item_heap now item qty none none h).lists.take h.lists.length =
      h.lists ∧
    (add_item_heap now item qty none none h).dicts.take h.dicts.length =
      h.dicts := by
  constructor
  · show ((h.lists ++ [[]]).set h.lists.length _).take h.lists.length = h.lists
    rw [set_append_length]
    exact List.take_left _ _
  · show ((h.dicts ++ [[]]).set h.dicts.length _).take h.dicts.length = h.dicts
    rw [set_append_length]
    exact List.take_left _ _
